import Mathlib

set_option autoImplicit false

/-! Shallow embedding of the cache library (`cacheitem.go`, `cachetable.go`).

Instants and durations are modelled as natural numbers; Go's
`now.Sub(accessedOn) >= lifeSpan` is rendered as
`accessedOn + lifeSpan ≤ now`, which is equivalent over the integers.
Go callbacks are arbitrary functions; the embedding identifies each
registered callback by a numeric id and records every invocation,
together with map removals and data-loader invocations, as an event
list returned alongside the new table state.  `time.Now()` is passed
explicitly as a `now` argument to every operation that reads the clock.
Locks and the logger have no observable sequential effect and are
dropped; the one-shot `cleanupTimer` is modelled by a Boolean
`timerArmed` flag. -/

namespace Cache

/-- Dynamic values stored in the cache, mirroring Go's empty-interface
payloads: base scalars, slices of values, and packed cache items (a
`*CacheItem` can itself be stored as a datum, which `Value`'s loader
path does via `table.Add(key, item.lifeSpan, item)`). The `itemVal`
constructor carries the fields of a `CacheItem` in declaration order:
key, value, lifeSpan, createdOn, accessedOn, accessCount,
aboutToExpire. -/
inductive Val where
  | unit : Val
  | nat : Nat → Val
  | str : String → Val
  | list : List Val → Val
  | itemVal : String → Val → Nat → Nat → Nat → Int → List Nat → Val

/-- A cache entry, as in `cacheitem.go`: key, payload, lifespan,
creation and last-access instants, access counter, and the item's own
about-to-expire callback list (callbacks identified by numeric ids). -/
structure CacheItem where
  key : String
  value : Val
  lifeSpan : Nat
  createdOn : Nat
  accessedOn : Nat
  accessCount : Int
  aboutToExpire : List Nat

/-- Packing of a `CacheItem` as a stored `Val`, the embedding of passing
a `*CacheItem` where an empty-interface datum is expected. -/
def Val.ofItem (it : CacheItem) : Val :=
  .itemVal it.key it.value it.lifeSpan it.createdOn it.accessedOn it.accessCount it.aboutToExpire

/-- Modelled from the spec: the error sentinels `ErrKeyNotFound` and
`ErrKeyNotFoundOrLoadable` are referenced by `cachetable.go` but defined
in a repository file that is not among the provided sources; the spec's
error-handling section names exactly these two error kinds. -/
inductive CacheError where
  | keyNotFound : CacheError
  | keyNotFoundOrLoadable : CacheError
deriving DecidableEq, Repr

/-- Observable events: invocation of an added-item callback (with the
item it receives), of an about-to-delete callback (with the doomed
item), of an item's about-to-expire callback (with the key, as in Go),
the removal of a key from the map, and an invocation of the data loader
(with the key and the caller-supplied extra arguments). -/
inductive Event where
  | added : Nat → CacheItem → Event
  | aboutToDelete : Nat → CacheItem → Event
  | expire : Nat → String → Event
  | removedFromMap : String → Event
  | loaderCall : String → List Val → Event

/-- The key an event is about. -/
def eventKey : Event → String
  | .added _ it => it.key
  | .aboutToDelete _ it => it.key
  | .expire _ k => k
  | .removedFromMap k => k
  | .loaderCall k _ => k

/-- Whether an event is an about-to-delete callback invocation. -/
def Event.isAboutToDelete : Event → Bool
  | .aboutToDelete _ _ => true
  | _ => false

/-- Lookup in the association list modelling Go's `table.items` map. -/
def assocFind (key : String) : List (String × CacheItem) → Option CacheItem
  | [] => none
  | p :: rest => if p.1 = key then some p.2 else assocFind key rest

/-- Removal of a key, modelling Go's `delete(table.items, key)`. -/
def assocErase (key : String) : List (String × CacheItem) → List (String × CacheItem)
  | [] => []
  | p :: rest => if p.1 = key then assocErase key rest else p :: assocErase key rest

/-- In-place insert-or-replace, modelling Go's `table.items[key] = item`. -/
def assocSet (key : String) (it : CacheItem) : List (String × CacheItem) → List (String × CacheItem)
  | [] => [(key, it)]
  | p :: rest => if p.1 = key then (key, it) :: rest else p :: assocSet key it rest

/-- The Go map holds each key at most once; the association list
modelling it has pairwise distinct keys. -/
def NodupKeys (l : List (String × CacheItem)) : Prop :=
  l.Pairwise (fun p q => p.1 ≠ q.1)

/-- Every stored item's `key` field agrees with the key it is stored
under, as every insertion in `cachetable.go` guarantees. -/
def KeysConsistent (l : List (String × CacheItem)) : Prop :=
  ∀ p ∈ l, p.2.key = p.1

/-- The cache table of `cachetable.go`: name, key-to-item map, armed
timer bookkeeping, optional data loader, and the two table-level
callback lists (added-item and about-to-delete, by numeric id). -/
structure CacheTable where
  name : String
  items : List (String × CacheItem)
  cleanupInterval : Nat
  timerArmed : Bool
  loadData : Option (String → List Val → Option CacheItem)
  addItem : List Nat
  aboutToDeleteItem : List Nat

/-- `NewCacheItem` of `cacheitem.go`: both timestamps are the creation
instant and the access counter starts at zero. -/
def NewCacheItem (key : String) (lifeSpan : Nat) (value : Val) (now : Nat) : CacheItem :=
  { key := key, value := value, lifeSpan := lifeSpan, createdOn := now,
    accessedOn := now, accessCount := 0, aboutToExpire := [] }

/-- `CacheItem.KeepAlive`: refresh the last-access instant and bump the
access counter. -/
def CacheItem.KeepAlive (it : CacheItem) (now : Nat) : CacheItem :=
  { it with accessedOn := now, accessCount := it.accessCount + 1 }

/-- The event sequence `deleteInternal` produces for a doomed item: the
table's about-to-delete callbacks in order with the item, then the
item's own expiry callbacks in order with the key, then the removal of
the key from the map. -/
def deleteEvents (cbs : List Nat) (key : String) (it : CacheItem) : List Event :=
  cbs.map (fun c => Event.aboutToDelete c it)
    ++ it.aboutToExpire.map (fun c => Event.expire c key)
    ++ [Event.removedFromMap key]

/-- Go's `smallestDuration` update inside `expirationCheck`: take the new
remaining lifespan when none is recorded yet or when it is smaller. -/
def updateSmallest (acc rem : Nat) : Nat :=
  if acc = 0 ∨ rem < acc then rem else acc

/-- The loop body of `expirationCheck` over the item map: items with
zero lifespan are skipped; expired items (`accessedOn + lifeSpan ≤ now`)
are removed through `deleteInternal`, emitting its events; surviving
items with nonzero lifespan feed their remaining lifespan into the
`smallestDuration` accumulator. Returns the surviving entries, the
final accumulator, and the emitted events. -/
def expirationCheckLoop (cbs : List Nat) (now : Nat) :
    List (String × CacheItem) → Nat → List (String × CacheItem) × Nat × List Event
  | [], smallest => ([], smallest, [])
  | (k, it) :: rest, smallest =>
    if it.lifeSpan = 0 then
      let r := expirationCheckLoop cbs now rest smallest
      ((k, it) :: r.1, r.2)
    else if it.accessedOn + it.lifeSpan ≤ now then
      let r := expirationCheckLoop cbs now rest smallest
      (r.1, r.2.1, deleteEvents cbs k it ++ r.2.2)
    else
      let r := expirationCheckLoop cbs now rest
        (updateSmallest smallest (it.accessedOn + it.lifeSpan - now))
      ((k, it) :: r.1, r.2)

/-- `expirationCheck` of `cachetable.go`: stop the current timer, sweep
the map, record the smallest remaining lifespan as `cleanupInterval`,
and re-arm the one-shot timer exactly when that duration is positive. -/
def expirationCheck (t : CacheTable) (now : Nat) : CacheTable × List Event :=
  let r := expirationCheckLoop t.aboutToDeleteItem now t.items 0
  ({ t with items := r.1, cleanupInterval := r.2.1, timerArmed := decide (0 < r.2.1) }, r.2.2)

/-- `addInternal`: store the item under its key, fire the added-item
callbacks with it, and trigger an expiration check when the new item's
nonzero lifespan is more imminent than the current interval (or none is
armed). -/
def addInternal (t : CacheTable) (it : CacheItem) (now : Nat) : CacheTable × List Event :=
  let t1 : CacheTable := { t with items := assocSet it.key it t.items }
  let addEvs := t.addItem.map (fun c => Event.added c it)
  if 0 < it.lifeSpan ∧ (t.cleanupInterval = 0 ∨ it.lifeSpan < t.cleanupInterval) then
    let r := expirationCheck t1 now
    (r.1, addEvs ++ r.2)
  else
    (t1, addEvs)

/-- `Add`: construct a fresh item and insert it via `addInternal`,
returning the new item. -/
def Add (t : CacheTable) (key : String) (lifeSpan : Nat) (value : Val) (now : Nat) :
    CacheItem × CacheTable × List Event :=
  let it := NewCacheItem key lifeSpan value now
  let r := addInternal t it now
  (it, r.1, r.2)

/-- `deleteInternal`: fail with `KeyNotFound` when the key is absent;
otherwise run the about-to-delete callbacks, the item's expiry
callbacks, remove the entry, and return the removed item. -/
def deleteInternal (t : CacheTable) (key : String) :
    Except CacheError CacheItem × CacheTable × List Event :=
  match assocFind key t.items with
  | none => (.error .keyNotFound, t, [])
  | some r =>
    (.ok r, { t with items := assocErase key t.items },
      deleteEvents t.aboutToDeleteItem key r)

/-- `Delete` of `cachetable.go`, as written: it first executes
`delete(table.items, key)` and only then calls `deleteInternal` on the
same key. -/
def Delete (t : CacheTable) (key : String) :
    Except CacheError CacheItem × CacheTable × List Event :=
  deleteInternal { t with items := assocErase key t.items } key

/-- `Exists`: membership test without side effects. (Named `ExistsKey`
because `Exists` is taken by the logic.) -/
def ExistsKey (t : CacheTable) (key : String) : Bool :=
  (assocFind key t.items).isSome

/-- `Count`: number of live items. -/
def Count (t : CacheTable) : Nat :=
  t.items.length

/-- `NotFoundAdd`: insert only when the key is absent, reporting whether
an insertion happened. -/
def NotFoundAdd (t : CacheTable) (key : String) (lifeSpan : Nat) (value : Val) (now : Nat) :
    Bool × CacheTable × List Event :=
  match assocFind key t.items with
  | some _ => (false, t, [])
  | none =>
    let r := addInternal t (NewCacheItem key lifeSpan value now) now
    (true, r.1, r.2)

/-- `Value` of `cachetable.go`: on a hit, `KeepAlive` the stored item and
return it. On a miss with a loader, Go invokes `loadData(key, args)`,
which passes the whole extra-argument slice as a single variadic
element — embedded as applying the loader to `[Val.list args]`; a
loader-supplied item `it` is inserted via `Add(key, it.lifeSpan, it)`,
i.e. a fresh item whose payload is `it` itself, and `it` is returned;
a declining loader yields `KeyNotFoundOrLoadable`. Without a loader the
miss fails with `KeyNotFound`. -/
def Value (t : CacheTable) (key : String) (args : List Val) (now : Nat) :
    Except CacheError CacheItem × CacheTable × List Event :=
  match assocFind key t.items with
  | some it =>
    let it2 := it.KeepAlive now
    (.ok it2, { t with items := assocSet key it2 t.items }, [])
  | none =>
    match t.loadData with
    | some loader =>
      match loader key [Val.list args] with
      | some it =>
        let r := Add t key it.lifeSpan (Val.ofItem it) now
        (.ok it, r.2.1, Event.loaderCall key args :: r.2.2)
      | none => (.error .keyNotFoundOrLoadable, t, [Event.loaderCall key args])
    | none => (.error .keyNotFound, t, [])

/-- `Flush`: drop every item, reset the interval, stop the timer; the
name, callback lists and loader are untouched. -/
def Flush (t : CacheTable) : CacheTable :=
  { t with items := [], cleanupInterval := 0, timerArmed := false }

/-- `MostAccessed`: snapshot the (key, accessCount) pairs, sort them by
descending access count (Go uses `sort.Sort` with `Less` comparing
counts with `>`), then walk at most `count` pairs looking each key up
in the map. -/
def MostAccessed (t : CacheTable) (count : Int) : List CacheItem :=
  (((t.items.map (fun kv => (kv.1, kv.2.accessCount))).mergeSort
      (fun a b => decide (b.2 ≤ a.2))).take count.toNat).filterMap
    (fun pr => assocFind pr.1 t.items)

/-- Iterated expiration sweeps at the given sequence of instants. -/
def sweeps (t : CacheTable) : List Nat → CacheTable
  | [] => t
  | now :: rest => sweeps (expirationCheck t now).1 rest

/-- Iterated `Value` lookups of one key at the given instants. -/
def valueHits (t : CacheTable) (key : String) : List Nat → CacheTable
  | [] => t
  | now :: rest => valueHits (Value t key [] now).2.1 key rest

/-- The remaining time-to-live of every nonzero-lifespan entry. -/
def remainingTTLs (l : List (String × CacheItem)) (now : Nat) : List Nat :=
  l.filterMap (fun kv =>
    if kv.2.lifeSpan = 0 then none else some (kv.2.accessedOn + kv.2.lifeSpan - now))

/-- The remaining time-to-live of every nonzero-lifespan entry that the
sweep at `now` lets survive. -/
def surviveTTLs (now : Nat) (l : List (String × CacheItem)) : List Nat :=
  l.filterMap (fun kv =>
    if kv.2.lifeSpan = 0 then none
    else if kv.2.accessedOn + kv.2.lifeSpan ≤ now then none
    else some (kv.2.accessedOn + kv.2.lifeSpan - now))

/-- An empty table with the given name and no configuration. -/
def emptyTable (name : String) : CacheTable :=
  { name := name, items := [], cleanupInterval := 0, timerArmed := false,
    loadData := none, addItem := [], aboutToDeleteItem := [] }

/-- The survival test of the sweep: an entry stays exactly when its
lifespan is zero or it has not yet expired at `now`. -/
def survivePred (now : Nat) (kv : String × CacheItem) : Bool :=
  decide (kv.2.lifeSpan = 0 ∨ now < kv.2.accessedOn + kv.2.lifeSpan)

/-- A concrete item for exercising `Value` on a hit. -/
def itC4 : CacheItem := NewCacheItem "a" 0 (Val.str "x") 3

/-- A concrete one-item table for exercising `Value` on a hit. -/
def tblC4 : CacheTable := { emptyTable "c4" with items := [("a", itC4)] }

/-- The item a concrete data loader supplies (lifespan 0, payload a
string). -/
def itLoaded : CacheItem := NewCacheItem "z" 0 (Val.str "p") 0

/-- A loader yielding `itLoaded` whatever it is asked. -/
def loaderConst : String → List Val → Option CacheItem := fun _ _ => some itLoaded

/-- A loader yielding `itLoaded` exactly when the extra arguments it
receives are the two numbers 1 and 2 — and declining otherwise. -/
def loaderPicky : String → List Val → Option CacheItem := fun _ vargs =>
  match vargs with
  | [Val.nat 1, Val.nat 2] => some itLoaded
  | _ => none

/-- An empty table configured with the picky loader. -/
def tblC2a : CacheTable := { emptyTable "c2a" with loadData := some loaderPicky }

/-- An empty table configured with the constant loader. -/
def tblC2b : CacheTable := { emptyTable "c2b" with loadData := some loaderConst }

/-- A non-expiring item stored under key a. -/
def itOld9 : CacheItem := NewCacheItem "a" 0 (Val.str "x") 0

/-- An item stored under key b, lifespan 5, last accessed at instant 0. -/
def itB9 : CacheItem := NewCacheItem "b" 5 (Val.str "x") 0

/-- A table holding both items above, with an about-to-delete callback
registered. -/
def tblC9 : CacheTable :=
  { emptyTable "c9" with items := [("a", itOld9), ("b", itB9)], aboutToDeleteItem := [5] }

/-- A table holding only the non-expiring item, with one added-item
callback registered. -/
def tblC9w : CacheTable :=
  { emptyTable "c9w" with items := [("a", itOld9)], addItem := [3] }

/-- A two-item table with distinct access counts. -/
def tblC8 : CacheTable :=
  { emptyTable "c8" with items :=
      [("a", { itC4 with key := "a", accessCount := 1 }),
       ("b", { itC4 with key := "b", accessCount := 4 })] }

@[simp]
theorem NewCacheItem_key (key : String) (lifeSpan : Nat) (value : Val) (now : Nat) :
    (NewCacheItem key lifeSpan value now).key = key := rfl

@[simp]
theorem NewCacheItem_lifeSpan (key : String) (lifeSpan : Nat) (value : Val) (now : Nat) :
    (NewCacheItem key lifeSpan value now).lifeSpan = lifeSpan := rfl

@[simp]
theorem NewCacheItem_accessedOn (key : String) (lifeSpan : Nat) (value : Val) (now : Nat) :
    (NewCacheItem key lifeSpan value now).accessedOn = now := rfl

@[simp]
theorem NewCacheItem_accessCount (key : String) (lifeSpan : Nat) (value : Val) (now : Nat) :
    (NewCacheItem key lifeSpan value now).accessCount = 0 := rfl

@[simp]
theorem assocFind_nil (key : String) : assocFind key [] = none := rfl

@[simp]
theorem assocFind_cons (key : String) (p : String × CacheItem) (l : List (String × CacheItem)) :
    assocFind key (p :: l) = if p.1 = key then some p.2 else assocFind key l := rfl

@[simp]
theorem assocFind_set_self (key : String) (it : CacheItem) (l : List (String × CacheItem)) :
    assocFind key (assocSet key it l) = some it := by
  induction l with
  | nil => simp [assocSet]
  | cons p rest ih =>
    by_cases h : p.1 = key
    · simp [assocSet, h]
    · simp [assocSet, h, ih]

theorem assocFind_set_ne (k key : String) (it : CacheItem) (l : List (String × CacheItem))
    (h : k ≠ key) : assocFind k (assocSet key it l) = assocFind k l := by
  induction l with
  | nil => simp [assocSet, Ne.symm h]
  | cons p rest ih =>
    by_cases hp : p.1 = key
    · simp [assocSet, hp, Ne.symm h]
    · simp only [assocSet, if_neg hp, assocFind_cons]
      by_cases hk : p.1 = k
      · simp [hk]
      · simp [hk, ih]

@[simp]
theorem assocFind_erase_self (key : String) (l : List (String × CacheItem)) :
    assocFind key (assocErase key l) = none := by
  induction l with
  | nil => simp [assocErase]
  | cons p rest ih =>
    by_cases h : p.1 = key
    · simp [assocErase, h, ih]
    · simp [assocErase, h, ih]

theorem assocFind_erase_ne (k key : String) (l : List (String × CacheItem)) (h : k ≠ key) :
    assocFind k (assocErase key l) = assocFind k l := by
  induction l with
  | nil => simp [assocErase]
  | cons p rest ih =>
    by_cases hp : p.1 = key
    · simp [assocErase, hp, ih, Ne.symm h]
    · simp only [assocErase, if_neg hp, assocFind_cons]
      by_cases hk : p.1 = k
      · simp [hk]
      · simp [hk, ih]

/-- The published `Delete` always takes the key-not-found branch of
`deleteInternal`, because it has already removed the key itself. -/
theorem Delete_eq (t : CacheTable) (key : String) :
    Delete t key =
      (.error .keyNotFound, { t with items := assocErase key t.items }, []) := by
  simp [Delete, deleteInternal]

/-- C1: the claim says `Delete(k)` on a present key removes the item and
returns it without error, failing with `KeyNotFound` exactly on absent
keys. In the code, `Delete` first runs `delete(table.items, key)` and
only then calls `deleteInternal(key)`, which therefore never finds the
key: for every table and every key — present or not — `Delete` removes
the key silently and returns the `KeyNotFound` error with no item. -/
theorem C1_delete_always_fails_keyNotFound (t : CacheTable) (key : String) :
    (Delete t key).1 = .error CacheError.keyNotFound ∧
      assocFind key (Delete t key).2.1.items = none := by
  rw [Delete_eq]
  exact ⟨rfl, by simp⟩

/-- C3: the claim says removal by `Delete` runs the about-to-delete and
expiry callbacks, in order, before the map removal. Because `Delete`
erases the key before calling `deleteInternal`, the `Delete` path
produces no events at all — no about-to-delete callback, no expiry
callback — even though the key does disappear from the map. -/
theorem C3_delete_fires_no_callbacks (t : CacheTable) (key : String) :
    (Delete t key).2.2 = [] ∧ ExistsKey (Delete t key).2.1 key = false := by
  rw [Delete_eq]
  exact ⟨rfl, by simp [ExistsKey]⟩

theorem survivePred_eq_true (now : Nat) (kv : String × CacheItem) :
    survivePred now kv = true ↔
      (kv.2.lifeSpan = 0 ∨ now < kv.2.accessedOn + kv.2.lifeSpan) := by
  simp [survivePred]

/-- The sweep loop keeps exactly the entries passing `survivePred`. -/
theorem expirationCheckLoop_items (cbs : List Nat) (now : Nat)
    (l : List (String × CacheItem)) (acc : Nat) :
    (expirationCheckLoop cbs now l acc).1 = l.filter (survivePred now) := by
  induction l generalizing acc with
  | nil => simp [expirationCheckLoop]
  | cons p rest ih =>
    obtain ⟨k, it⟩ := p
    by_cases h0 : it.lifeSpan = 0
    · simp [expirationCheckLoop, h0, survivePred, ih]
    · by_cases hexp : it.accessedOn + it.lifeSpan ≤ now
      · have hlt : ¬ now < it.accessedOn + it.lifeSpan := by omega
        simp [expirationCheckLoop, h0, hexp, survivePred, ih, hlt]
      · have hlt : now < it.accessedOn + it.lifeSpan := by omega
        simp [expirationCheckLoop, h0, hexp, survivePred, ih, hlt]

/-- The sweep loop's accumulator result is the fold of Go's
`smallestDuration` update over the surviving remaining lifespans. -/
theorem expirationCheckLoop_smallest (cbs : List Nat) (now : Nat)
    (l : List (String × CacheItem)) (acc : Nat) :
    (expirationCheckLoop cbs now l acc).2.1 = (surviveTTLs now l).foldl updateSmallest acc := by
  induction l generalizing acc with
  | nil => simp [expirationCheckLoop, surviveTTLs]
  | cons p rest ih =>
    obtain ⟨k, it⟩ := p
    by_cases h0 : it.lifeSpan = 0
    · simp [expirationCheckLoop, h0, surviveTTLs, ih]
    · by_cases hexp : it.accessedOn + it.lifeSpan ≤ now
      · simp [expirationCheckLoop, h0, hexp, surviveTTLs, ih]
      · simp [expirationCheckLoop, h0, hexp, surviveTTLs, ih]

/-- Every event the sweep loop emits belongs to the `deleteInternal`
sequence of some expired entry of the swept list. -/
theorem expirationCheckLoop_events_mem (cbs : List Nat) (now : Nat)
    (l : List (String × CacheItem)) (acc : Nat) (e : Event)
    (he : e ∈ (expirationCheckLoop cbs now l acc).2.2) :
    ∃ k it, (k, it) ∈ l ∧ it.lifeSpan ≠ 0 ∧ it.accessedOn + it.lifeSpan ≤ now ∧
      e ∈ deleteEvents cbs k it := by
  induction l generalizing acc with
  | nil => simp [expirationCheckLoop] at he
  | cons p rest ih =>
    obtain ⟨k, it⟩ := p
    by_cases h0 : it.lifeSpan = 0
    · simp only [expirationCheckLoop, if_pos h0] at he
      obtain ⟨k2, it2, hmem, h⟩ := ih _ he
      exact ⟨k2, it2, List.mem_cons_of_mem _ hmem, h⟩
    · by_cases hexp : it.accessedOn + it.lifeSpan ≤ now
      · simp only [expirationCheckLoop, if_neg h0, if_pos hexp, List.mem_append] at he
        rcases he with he | he
        · exact ⟨k, it, List.mem_cons_self _ _, h0, hexp, he⟩
        · obtain ⟨k2, it2, hmem, h⟩ := ih _ he
          exact ⟨k2, it2, List.mem_cons_of_mem _ hmem, h⟩
      · simp only [expirationCheckLoop, if_neg h0, if_neg hexp] at he
        obtain ⟨k2, it2, hmem, h⟩ := ih _ he
        exact ⟨k2, it2, List.mem_cons_of_mem _ hmem, h⟩

/-- When no entry of the swept list is expired, the sweep emits no
events at all. -/
theorem expirationCheckLoop_events_nil (cbs : List Nat) (now : Nat)
    (l : List (String × CacheItem)) (acc : Nat)
    (h : ∀ p ∈ l, p.2.lifeSpan = 0 ∨ now < p.2.accessedOn + p.2.lifeSpan) :
    (expirationCheckLoop cbs now l acc).2.2 = [] := by
  induction l generalizing acc with
  | nil => simp [expirationCheckLoop]
  | cons p rest ih =>
    obtain ⟨k, it⟩ := p
    have hrest : ∀ q ∈ rest, q.2.lifeSpan = 0 ∨ now < q.2.accessedOn + q.2.lifeSpan :=
      fun q hq => h q (List.mem_cons_of_mem _ hq)
    by_cases h0 : it.lifeSpan = 0
    · simp [expirationCheckLoop, h0, ih _ hrest]
    · have hlt : now < it.accessedOn + it.lifeSpan := by
        rcases h (k, it) (List.mem_cons_self _ _) with h | h
        · exact absurd h h0
        · exact h
      have hexp : ¬ it.accessedOn + it.lifeSpan ≤ now := by omega
      simp [expirationCheckLoop, h0, hexp, ih _ hrest]

/-- Folding Go's `smallestDuration` update over positive durations from
a positive start computes the minimum of start and durations. -/
theorem foldl_updateSmallest_pos (ttls : List Nat) (acc : Nat) (hacc : 0 < acc)
    (hpos : ∀ x ∈ ttls, 0 < x) :
    (ttls.foldl updateSmallest acc = acc ∨ ttls.foldl updateSmallest acc ∈ ttls) ∧
      ttls.foldl updateSmallest acc ≤ acc ∧
      ∀ x ∈ ttls, ttls.foldl updateSmallest acc ≤ x := by
  induction ttls generalizing acc with
  | nil => simp
  | cons x xs ih =>
    have hx : 0 < x := hpos x (List.mem_cons_self _ _)
    have hxs : ∀ y ∈ xs, 0 < y := fun y hy => hpos y (List.mem_cons_of_mem _ hy)
    by_cases hlt : x < acc
    · have hstep : updateSmallest acc x = x := by
        simp [updateSmallest, hlt]
      obtain ⟨hmem, hle, hall⟩ := ih x hx hxs
      refine ⟨?_, ?_, ?_⟩
      · simp only [List.foldl_cons, hstep]
        rcases hmem with h | h
        · exact Or.inr (by simp [h])
        · exact Or.inr (List.mem_cons_of_mem _ h)
      · simp only [List.foldl_cons, hstep]
        omega
      · intro y hy
        simp only [List.foldl_cons, hstep]
        rcases List.mem_cons.mp hy with rfl | hy
        · exact hle
        · exact hall y hy
    · have hstep : updateSmallest acc x = acc := by
        have : ¬ (acc = 0 ∨ x < acc) := by omega
        simp [updateSmallest, this]
      obtain ⟨hmem, hle, hall⟩ := ih acc hacc hxs
      refine ⟨?_, ?_, ?_⟩
      · simp only [List.foldl_cons, hstep]
        rcases hmem with h | h
        · exact Or.inl h
        · exact Or.inr (List.mem_cons_of_mem _ h)
      · simpa [hstep] using hle
      · intro y hy
        simp only [List.foldl_cons, hstep]
        rcases List.mem_cons.mp hy with rfl | hy
        · omega
        · exact hall y hy

/-- Folding Go's `smallestDuration` update over positive durations from
the zero start: zero when there are none, the minimum otherwise. -/
theorem foldl_updateSmallest_zero (ttls : List Nat) (hpos : ∀ x ∈ ttls, 0 < x) :
    (ttls = [] → ttls.foldl updateSmallest 0 = 0) ∧
      (ttls ≠ [] → ttls.foldl updateSmallest 0 ∈ ttls ∧
        ∀ x ∈ ttls, ttls.foldl updateSmallest 0 ≤ x) := by
  cases ttls with
  | nil => simp
  | cons x xs =>
    have hx : 0 < x := hpos x (List.mem_cons_self _ _)
    have hxs : ∀ y ∈ xs, 0 < y := fun y hy => hpos y (List.mem_cons_of_mem _ hy)
    have hstep : updateSmallest 0 x = x := by simp [updateSmallest]
    obtain ⟨hmem, hle, hall⟩ := foldl_updateSmallest_pos xs x hx hxs
    refine ⟨by simp, fun _ => ?_⟩
    constructor
    · simp only [List.foldl_cons, hstep]
      rcases hmem with h | h
      · exact by simp [h]
      · exact List.mem_cons_of_mem _ h
    · intro y hy
      simp only [List.foldl_cons, hstep]
      rcases List.mem_cons.mp hy with rfl | hy
      · exact hle
      · exact hall y hy

theorem assocFind_mem (k : String) (l : List (String × CacheItem)) (it : CacheItem)
    (h : assocFind k l = some it) : (k, it) ∈ l := by
  induction l with
  | nil => simp at h
  | cons q rest ih =>
    by_cases hq : q.1 = k
    · have : q.2 = it := by simpa [hq] using h
      have hqe : q = (k, it) := by
        cases q
        simp_all
      exact hqe ▸ List.mem_cons_self _ _
    · exact List.mem_cons_of_mem _ (ih (by simpa [hq] using h))

/-- A present first occurrence that passes the filter is still the first
occurrence after the filter. -/
theorem assocFind_filter (p : (String × CacheItem) → Bool) (k : String)
    (l : List (String × CacheItem)) (it : CacheItem)
    (hf : assocFind k l = some it) (hp : p (k, it) = true) :
    assocFind k (l.filter p) = some it := by
  induction l with
  | nil => simp at hf
  | cons q rest ih =>
    by_cases hq : q.1 = k
    · have h2 : q.2 = it := by simpa [hq] using hf
      have hqe : q = (k, it) := by
        cases q
        simp_all
      subst hqe
      simp [List.filter_cons, hp]
    · have hf2 : assocFind k rest = some it := by simpa [hq] using hf
      by_cases hkeep : p q = true
      · simp [List.filter_cons, hkeep, hq, ih hf2]
      · simp only [List.filter_cons, if_neg hkeep]
        exact ih hf2

/-- An item that does not expire at `now` (in particular any item whose
last access is `now` itself) is still found after `addInternal`, even
when the insertion cascades into an expiration check. -/
theorem addInternal_find_self (t : CacheTable) (it : CacheItem) (now : Nat)
    (h : 0 < it.lifeSpan → now < it.accessedOn + it.lifeSpan) :
    assocFind it.key (addInternal t it now).1.items = some it := by
  have hp : survivePred now (it.key, it) = true := by
    simp only [survivePred, decide_eq_true_eq]
    omega
  unfold addInternal
  by_cases hc : 0 < it.lifeSpan ∧ (t.cleanupInterval = 0 ∨ it.lifeSpan < t.cleanupInterval)
  · simp only [if_pos hc, expirationCheck, expirationCheckLoop_items]
    exact assocFind_filter _ _ _ _ (assocFind_set_self _ _ _) hp
  · simp only [if_neg hc]
    exact assocFind_set_self _ _ _

/-- The item `Add` creates is found under its key afterwards. -/
theorem Add_find_self (t : CacheTable) (k : String) (d : Nat) (v : Val) (now : Nat) :
    assocFind k (Add t k d v now).2.1.items = some (NewCacheItem k d v now) := by
  have h := addInternal_find_self t (NewCacheItem k d v now) now
    (by simp [NewCacheItem])
  simpa [Add, NewCacheItem] using h

/-- A `Value` hit stores and returns the kept-alive item and emits no
events. -/
theorem Value_hit_eq (t : CacheTable) (key : String) (args : List Val) (now : Nat)
    (it : CacheItem) (h : assocFind key t.items = some it) :
    Value t key args now =
      (.ok (it.KeepAlive now), { t with items := assocSet key (it.KeepAlive now) t.items }, []) := by
  simp [Value, h]

/-- A zero-lifespan entry survives any sequence of sweeps. -/
theorem sweeps_preserves_immortal (t : CacheTable) (k : String) (it : CacheItem)
    (ts : List Nat) (h : assocFind k t.items = some it) (h0 : it.lifeSpan = 0) :
    assocFind k (sweeps t ts).items = some it := by
  induction ts generalizing t with
  | nil => simpa [sweeps] using h
  | cons now rest ih =>
    have hstep : assocFind k (expirationCheck t now).1.items = some it := by
      simp only [expirationCheck, expirationCheckLoop_items]
      exact assocFind_filter _ _ _ _ h (by simp [survivePred, h0])
    simpa [sweeps] using ih _ hstep

/-- After the sweep's filter, the remaining lifespans are the surviving
ones computed from the pre-sweep list. -/
theorem remainingTTLs_filter_survive (now : Nat) (l : List (String × CacheItem)) :
    remainingTTLs (l.filter (survivePred now)) now = surviveTTLs now l := by
  induction l with
  | nil => simp [remainingTTLs, surviveTTLs]
  | cons p rest ih =>
    simp only [remainingTTLs, surviveTTLs] at ih ⊢
    by_cases h0 : p.2.lifeSpan = 0
    · have hs : survivePred now p = true := by simp [survivePred, h0]
      simp [List.filter_cons, hs, List.filterMap_cons, h0, ih]
    · by_cases hexp : p.2.accessedOn + p.2.lifeSpan ≤ now
      · have hs : survivePred now p = false := by
          simp only [survivePred, decide_eq_false_iff_not]
          omega
        simp [List.filter_cons, hs, List.filterMap_cons, h0, hexp, ih]
      · have hs : survivePred now p = true := by
          simp only [survivePred, decide_eq_true_eq]
          omega
        simp [List.filter_cons, hs, List.filterMap_cons, h0, hexp, ih]

/-- Surviving remaining lifespans are positive. -/
theorem surviveTTLs_pos (now : Nat) (l : List (String × CacheItem)) :
    ∀ x ∈ surviveTTLs now l, 0 < x := by
  intro x hx
  simp only [surviveTTLs, List.mem_filterMap] at hx
  obtain ⟨kv, _, hkv⟩ := hx
  by_cases h0 : kv.2.lifeSpan = 0
  · simp [h0] at hkv
  · by_cases hexp : kv.2.accessedOn + kv.2.lifeSpan ≤ now
    · simp [h0, hexp] at hkv
    · simp only [h0, hexp, if_neg, if_false, Option.some.injEq] at hkv
      omega

/-- C5: a sweep at instant `now` removes exactly the entries with
nonzero lifespan for which `now - accessedOn >= lifespan`
(equivalently `accessedOn + lifespan ≤ now`); an entry with lifespan 0
always survives, so a key added with lifespan 0 still exists after any
sequence of sweeps at any instants. -/
theorem C5_sweep_removes_exactly_expired (t : CacheTable) (now : Nat) :
    (∀ k it, (k, it) ∈ (expirationCheck t now).1.items ↔
      ((k, it) ∈ t.items ∧ (it.lifeSpan = 0 ∨ now < it.accessedOn + it.lifeSpan))) ∧
    (∀ (k : String) (v : Val) (anow : Nat) (ts : List Nat),
      ExistsKey (sweeps (Add t k 0 v anow).2.1 ts) k = true) := by
  constructor
  · intro k it
    simp only [expirationCheck, expirationCheckLoop_items, List.mem_filter,
      survivePred_eq_true]
  · intro k v anow ts
    have hadd : assocFind k (Add t k 0 v anow).2.1.items = some (NewCacheItem k 0 v anow) :=
      Add_find_self t k 0 v anow
    have hs := sweeps_preserves_immortal _ k (NewCacheItem k 0 v anow) ts hadd
      (by simp [NewCacheItem])
    simp [ExistsKey, hs]

/-- C7: after a sweep, `cleanupInterval` is the minimum remaining
time-to-live among the surviving nonzero-lifespan items — zero when no
such item survives — and the one-shot timer is re-armed exactly when
that value is positive. -/
theorem C7_cleanupInterval_min_remaining (t : CacheTable) (now : Nat) :
    (remainingTTLs (expirationCheck t now).1.items now = [] →
      (expirationCheck t now).1.cleanupInterval = 0) ∧
    (remainingTTLs (expirationCheck t now).1.items now ≠ [] →
      (expirationCheck t now).1.cleanupInterval ∈
          remainingTTLs (expirationCheck t now).1.items now ∧
        ∀ x ∈ remainingTTLs (expirationCheck t now).1.items now,
          (expirationCheck t now).1.cleanupInterval ≤ x) ∧
    ((expirationCheck t now).1.timerArmed = true ↔
      0 < (expirationCheck t now).1.cleanupInterval) := by
  have hitems : (expirationCheck t now).1.items = t.items.filter (survivePred now) := by
    simp [expirationCheck, expirationCheckLoop_items]
  have hsm : (expirationCheck t now).1.cleanupInterval =
      (surviveTTLs now t.items).foldl updateSmallest 0 := by
    simp [expirationCheck, expirationCheckLoop_smallest]
  have hrem : remainingTTLs (expirationCheck t now).1.items now = surviveTTLs now t.items := by
    rw [hitems, remainingTTLs_filter_survive]
  have hfold := foldl_updateSmallest_zero (surviveTTLs now t.items) (surviveTTLs_pos now t.items)
  refine ⟨?_, ?_, ?_⟩
  · intro hnil
    rw [hsm]
    exact hfold.1 (by rwa [hrem] at hnil)
  · intro hne
    rw [hsm, hrem]
    exact hfold.2 (by rwa [hrem] at hne)
  · simp [expirationCheck]

/-- Iterated hit lookups add their number to the stored access count. -/
theorem valueHits_find (t : CacheTable) (k : String) (it : CacheItem) (ts : List Nat)
    (h : assocFind k t.items = some it) :
    ∃ it2, assocFind k (valueHits t k ts).items = some it2 ∧
      it2.accessCount = it.accessCount + ts.length := by
  induction ts generalizing t it with
  | nil => exact ⟨it, by simpa [valueHits] using h, by simp⟩
  | cons now rest ih =>
    have hstep : assocFind k (Value t k [] now).2.1.items = some (it.KeepAlive now) := by
      simp [Value, h]
    obtain ⟨it2, hfind, hcount⟩ := ih _ _ hstep
    refine ⟨it2, by simpa [valueHits] using hfind, ?_⟩
    simp only [CacheItem.KeepAlive] at hcount
    simp only [hcount, List.length_cons]
    push_cast
    ring

/-- C4: on a hit, `Value` returns the stored item with its access count
incremented by exactly one and its access timestamp set to `now`
(hence at least the previous timestamp under a monotone clock), leaving
key and payload unchanged, and stores the refreshed item back; and
after a fresh `Add` (access count 0), any sequence of `n` hit lookups
leaves the stored access count at exactly `n`. -/
theorem C4_value_hit_access (t : CacheTable) (k : String) (args : List Val) (now : Nat)
    (it : CacheItem) (hfind : assocFind k t.items = some it) (hmono : it.accessedOn ≤ now) :
    (Value t k args now).1 = .ok (it.KeepAlive now) ∧
    (it.KeepAlive now).accessCount = it.accessCount + 1 ∧
    (it.KeepAlive now).accessedOn = now ∧
    it.accessedOn ≤ (it.KeepAlive now).accessedOn ∧
    (it.KeepAlive now).key = it.key ∧
    (it.KeepAlive now).value = it.value ∧
    assocFind k (Value t k args now).2.1.items = some (it.KeepAlive now) ∧
    (∀ (d : Nat) (v : Val) (anow : Nat) (ts : List Nat),
      ∃ it2, assocFind k (valueHits (Add t k d v anow).2.1 k ts).items = some it2 ∧
        it2.accessCount = (ts.length : Int)) := by
  rw [Value_hit_eq t k args now it hfind]
  refine ⟨rfl, rfl, rfl, by simpa [CacheItem.KeepAlive] using hmono, rfl, rfl, by simp, ?_⟩
  intro d v anow ts
  obtain ⟨it2, hf, hc⟩ := valueHits_find _ k (NewCacheItem k d v anow) ts (Add_find_self t k d v anow)
  exact ⟨it2, hf, by simpa [NewCacheItem] using hc⟩

/-- C6: `NotFoundAdd` on a present key returns false and leaves the
whole table — in particular the existing item's value, lifespan, access
metadata, and the map membership — untouched, emitting no events; on an
absent key it returns true and the key is afterwards bound to the fresh
item. -/
theorem C6_notFoundAdd (t : CacheTable) (k : String) (d : Nat) (v : Val) (now : Nat) :
    (∀ it, assocFind k t.items = some it → NotFoundAdd t k d v now = (false, t, [])) ∧
    (assocFind k t.items = none →
      (NotFoundAdd t k d v now).1 = true ∧
      assocFind k (NotFoundAdd t k d v now).2.1.items = some (NewCacheItem k d v now)) := by
  constructor
  · intro it hit
    simp [NotFoundAdd, hit]
  · intro hnone
    have h := addInternal_find_self t (NewCacheItem k d v now) now (by simp [NewCacheItem])
    constructor
    · simp [NotFoundAdd, hnone]
    · simpa [NotFoundAdd, hnone, NewCacheItem] using h

/-- C10: `Flush` empties the table (count 0) and resets
`cleanupInterval` to 0 while keeping the name, both callback lists and
the data loader; the flushed table remains usable: a subsequent `Add`
stores the fresh item and fires exactly the preserved added-item
callbacks with it. -/
theorem C10_flush (t : CacheTable) :
    Count (Flush t) = 0 ∧ (Flush t).items = [] ∧ (Flush t).cleanupInterval = 0 ∧
    (Flush t).name = t.name ∧ (Flush t).addItem = t.addItem ∧
    (Flush t).aboutToDeleteItem = t.aboutToDeleteItem ∧
    (Flush t).loadData = t.loadData ∧
    (∀ (k : String) (d : Nat) (v : Val) (now : Nat),
      assocFind k (Add (Flush t) k d v now).2.1.items = some (NewCacheItem k d v now) ∧
      (Add (Flush t) k d v now).2.2 =
        t.addItem.map (fun c => Event.added c (NewCacheItem k d v now))) := by
  refine ⟨rfl, rfl, rfl, rfl, rfl, rfl, rfl, ?_⟩
  intro k d v now
  refine ⟨Add_find_self _ k d v now, ?_⟩
  by_cases hd : 0 < d
  · have hnil : (expirationCheckLoop t.aboutToDeleteItem now
        [(k, NewCacheItem k d v now)] 0).2.2 = [] := by
      apply expirationCheckLoop_events_nil
      intro p hp
      rw [List.mem_singleton] at hp
      subst hp
      simp only [NewCacheItem]
      omega
    simp only [NewCacheItem] at hnil
    simp [Add, addInternal, Flush, NewCacheItem, hd, expirationCheck, assocSet, hnil]
  · simp [Add, addInternal, Flush, NewCacheItem, hd]

/-- C4 witness: the hit path at a concrete table and instant. -/
theorem C4_value_hit_access_witness :
    (Value tblC4 "a" [] 5).1 = .ok (itC4.KeepAlive 5) ∧
      (itC4.KeepAlive 5).accessCount = itC4.accessCount + 1 ∧
      assocFind "a" (Value tblC4 "a" [] 5).2.1.items = some (itC4.KeepAlive 5) :=
  ⟨(C4_value_hit_access tblC4 "a" [] 5 itC4 rfl (by decide)).1,
   (C4_value_hit_access tblC4 "a" [] 5 itC4 rfl (by decide)).2.1,
   (C4_value_hit_access tblC4 "a" [] 5 itC4 rfl (by decide)).2.2.2.2.2.2.1⟩

/-- C2 counterexample: the claim as stated fails on the code in two
places. First, with the picky loader — which yields an item for key z
when given the extra arguments 1 and 2 — the call
`Value(z, 1, 2)` fails with `KeyNotFoundOrNotLoadable` instead of
succeeding, because the code passes the extra arguments wrapped in a
single slice-valued argument (`loadData(key, args)` instead of
`loadData(key, args...)`), which the loader does not recognise.
Second, with the constant loader the item stored under z after
`Value(z)` is not the loader-supplied item: its payload is the packed
loader item rather than the loader item's own string payload. -/
theorem C2_counterexample :
    (Value tblC2a "z" [Val.nat 1, Val.nat 2] 0).1 = .error CacheError.keyNotFoundOrLoadable ∧
      Option.map CacheItem.value (assocFind "z" (Value tblC2b "z" [] 0).2.1.items) ≠
        some (Val.str "p") := by
  constructor
  · rfl
  · have h : Option.map CacheItem.value (assocFind "z" (Value tblC2b "z" [] 0).2.1.items) =
        some (Val.ofItem itLoaded) := rfl
    rw [h]
    simp [Val.ofItem]

/-- C2 (amended): on a miss, with no loader configured `Value` fails
with `KeyNotFound`; with a loader configured, `Value` invokes it with
the key and a single extra argument holding the list of the
caller-supplied extra arguments; a declining loader makes `Value` fail
with `KeyNotFoundOrNotLoadable`, while a loader-supplied item `L` is
returned as is, and a new item whose payload is `L` itself is inserted
under the key with the loader-supplied lifespan, so that a second
`Value` call on the same key hits that cached wrapper item without
invoking the loader again (no loader event, indeed no event at all, is
emitted by the second call). -/
theorem C2_value_miss_loader (t : CacheTable) (k : String) (args : List Val) (now : Nat)
    (habs : assocFind k t.items = none) :
    (t.loadData = none → Value t k args now = (.error .keyNotFound, t, [])) ∧
    (∀ lf, t.loadData = some lf →
      (lf k [Val.list args] = none →
        Value t k args now = (.error .keyNotFoundOrLoadable, t, [Event.loaderCall k args])) ∧
      (∀ L, lf k [Val.list args] = some L →
        (Value t k args now).1 = .ok L ∧
        assocFind k (Value t k args now).2.1.items =
          some (NewCacheItem k L.lifeSpan (Val.ofItem L) now) ∧
        (∀ (args2 : List Val) (now2 : Nat),
          (Value (Value t k args now).2.1 k args2 now2).1 =
            .ok ((NewCacheItem k L.lifeSpan (Val.ofItem L) now).KeepAlive now2) ∧
          (Value (Value t k args now).2.1 k args2 now2).2.2 = []))) := by
  refine ⟨fun hnone => by simp [Value, habs, hnone], fun lf hlf => ⟨?_, ?_⟩⟩
  · intro hno
    simp [Value, habs, hlf, hno]
  · intro L hL
    have h1 : (Value t k args now).1 = .ok L := by
      simp [Value, habs, hlf, hL]
    have h2 : (Value t k args now).2.1 = (Add t k L.lifeSpan (Val.ofItem L) now).2.1 := by
      simp [Value, habs, hlf, hL, Add]
    have hfind : assocFind k (Value t k args now).2.1.items =
        some (NewCacheItem k L.lifeSpan (Val.ofItem L) now) := by
      rw [h2]
      exact Add_find_self t k L.lifeSpan (Val.ofItem L) now
    refine ⟨h1, hfind, fun args2 now2 => ?_⟩
    rw [Value_hit_eq _ k args2 now2 _ hfind]
    exact ⟨rfl, rfl⟩

/-- C2 witness: the amended loader path at a concrete table. -/
theorem C2_value_miss_loader_witness :
    (Value tblC2b "z" [] 7).1 = .ok itLoaded ∧
      assocFind "z" (Value tblC2b "z" [] 7).2.1.items =
        some (NewCacheItem "z" itLoaded.lifeSpan (Val.ofItem itLoaded) 7) ∧
      (Value (Value tblC2b "z" [] 7).2.1 "z" [] 9).2.2 = [] :=
  ⟨(((C2_value_miss_loader tblC2b "z" [] 7 rfl).2 loaderConst rfl).2 itLoaded rfl).1,
   (((C2_value_miss_loader tblC2b "z" [] 7 rfl).2 loaderConst rfl).2 itLoaded rfl).2.1,
   ((((C2_value_miss_loader tblC2b "z" [] 7 rfl).2 loaderConst rfl).2 itLoaded rfl).2.2 [] 9).2⟩

theorem mem_assocSet (key : String) (it : CacheItem) (l : List (String × CacheItem))
    (q : String × CacheItem) (hq : q ∈ assocSet key it l) : q = (key, it) ∨ q ∈ l := by
  induction l with
  | nil => simpa [assocSet] using hq
  | cons p rest ih =>
    by_cases hp : p.1 = key
    · simp only [assocSet, if_pos hp, List.mem_cons] at hq
      rcases hq with h | h
      · exact Or.inl h
      · exact Or.inr (List.mem_cons_of_mem _ h)
    · simp only [assocSet, if_neg hp, List.mem_cons] at hq
      rcases hq with h | h
      · exact Or.inr (h ▸ List.mem_cons_self _ _)
      · rcases ih h with h2 | h2
        · exact Or.inl h2
        · exact Or.inr (List.mem_cons_of_mem _ h2)

/-- With pairwise-distinct keys, the only entry of the updated list
under the updated key is the new binding. -/
theorem mem_assocSet_eq_of_key (key : String) (it : CacheItem) (l : List (String × CacheItem))
    (hnd : NodupKeys l) (q : String × CacheItem) (hq : q ∈ assocSet key it l)
    (hk : q.1 = key) : q = (key, it) := by
  induction l with
  | nil => simpa [assocSet] using hq
  | cons p rest ih =>
    rw [NodupKeys, List.pairwise_cons] at hnd
    by_cases hp : p.1 = key
    · simp only [assocSet, if_pos hp, List.mem_cons] at hq
      rcases hq with h | h
      · exact h
      · exact absurd (hp.trans hk.symm) (hnd.1 q h)
    · simp only [assocSet, if_neg hp, List.mem_cons] at hq
      rcases hq with h | h
      · exact absurd (h ▸ hk) hp
      · exact ih hnd.2 h

/-- Every event of the `deleteInternal` sequence for a key-consistent
entry is about that entry's key. -/
theorem eventKey_deleteEvents (cbs : List Nat) (k2 : String) (it2 : CacheItem)
    (hkey : it2.key = k2) (e : Event) (he : e ∈ deleteEvents cbs k2 it2) :
    eventKey e = k2 := by
  simp only [deleteEvents, List.mem_append, List.mem_map, List.mem_singleton] at he
  rcases he with (⟨c, _, rfl⟩ | ⟨c, _, rfl⟩) | rfl
  · exact hkey
  · rfl
  · rfl

/-- C9 counterexample: the claim as stated — `Add` on a present key
fires no about-to-delete callback at all, only the added-item
callbacks — fails: at a table holding key a (non-expiring) and an
already-expired key b, `Add` on the present key a with a nonzero
lifespan cascades into an expiration check, which fires the registered
about-to-delete callback (for the doomed item b). -/
theorem C9_counterexample :
    ExistsKey tblC9 "a" = true ∧
      ((Add tblC9 "a" 10 (Val.str "y") 100).2.2).any Event.isAboutToDelete = true :=
  ⟨rfl, rfl⟩

/-- C9 (amended): `Add` on a present key silently replaces the existing
item (it is afterwards bound to the fresh item) without invoking any
about-to-delete or expiry callback for that key: among the emitted
events, those about the added key are exactly one added-item callback
invocation per registered callback, receiving the new item; no
about-to-delete event carries an item with that key and no expiry
event names that key. (A cascaded expiration check may still fire the
deletion sequence for other, expired keys.) -/
theorem C9_add_overwrite (t : CacheTable) (k : String) (d : Nat) (v : Val) (now : Nat)
    (old : CacheItem) (hpres : assocFind k t.items = some old)
    (hnd : NodupKeys t.items) (hcons : KeysConsistent t.items) :
    assocFind k (Add t k d v now).2.1.items = some (NewCacheItem k d v now) ∧
    (Add t k d v now).2.2.filter (fun e => eventKey e == k) =
      t.addItem.map (fun c => Event.added c (NewCacheItem k d v now)) ∧
    (∀ c it2, Event.aboutToDelete c it2 ∈ (Add t k d v now).2.2 → it2.key ≠ k) ∧
    (∀ c, Event.expire c k ∉ (Add t k d v now).2.2) := by
  refine ⟨Add_find_self t k d v now, ?_⟩
  have haddEvs : ∀ e ∈ t.addItem.map (fun c => Event.added c (NewCacheItem k d v now)),
      (eventKey e == k) = true := by
    intro e he
    obtain ⟨c, _, rfl⟩ := List.mem_map.mp he
    simp [eventKey, NewCacheItem]
  by_cases hc : 0 < d ∧ (t.cleanupInterval = 0 ∨ d < t.cleanupInterval)
  · have hkey : ∀ e ∈ (expirationCheckLoop t.aboutToDeleteItem now
        (assocSet k (NewCacheItem k d v now) t.items) 0).2.2, eventKey e ≠ k := by
      intro e he
      obtain ⟨k2, it2, hmem, h0, hexp, hin⟩ := expirationCheckLoop_events_mem _ _ _ _ _ he
      by_cases hk2 : k2 = k
      · subst hk2
        have heq : (k2, it2) = (k2, NewCacheItem k2 d v now) :=
          mem_assocSet_eq_of_key k2 (NewCacheItem k2 d v now) t.items hnd (k2, it2) hmem rfl
        have hit : it2 = NewCacheItem k2 d v now := by
          simpa using heq
        rw [hit] at hexp
        simp only [NewCacheItem_accessedOn, NewCacheItem_lifeSpan] at hexp
        omega
      · have hkeys : it2.key = k2 := by
          rcases mem_assocSet _ _ _ _ hmem with h | h
          · exact absurd (congrArg Prod.fst h) hk2
          · exact hcons _ h
        rw [eventKey_deleteEvents _ _ _ hkeys e hin]
        exact hk2
    have hevs : (Add t k d v now).2.2 =
        t.addItem.map (fun c => Event.added c (NewCacheItem k d v now)) ++
          (expirationCheckLoop t.aboutToDeleteItem now
            (assocSet k (NewCacheItem k d v now) t.items) 0).2.2 := by
      simp [Add, addInternal, hc, expirationCheck]
    rw [hevs]
    refine ⟨?_, ?_, ?_⟩
    · rw [List.filter_append, List.filter_eq_self.mpr haddEvs,
        List.filter_eq_nil_iff.mpr ?_, List.append_nil]
      intro e he
      simp only [beq_iff_eq]
      exact hkey e he
    · intro c it2 hmem
      rcases List.mem_append.mp hmem with h | h
      · obtain ⟨c2, _, heq⟩ := List.mem_map.mp h
        simp at heq
      · have := hkey _ h
        simpa [eventKey] using this
    · intro c hmem
      rcases List.mem_append.mp hmem with h | h
      · obtain ⟨c2, _, heq⟩ := List.mem_map.mp h
        simp at heq
      · exact (hkey _ h) rfl
  · have hevs : (Add t k d v now).2.2 =
        t.addItem.map (fun c => Event.added c (NewCacheItem k d v now)) := by
      simp [Add, addInternal, hc]
    rw [hevs]
    refine ⟨List.filter_eq_self.mpr haddEvs, ?_, ?_⟩
    · intro c it2 hmem
      obtain ⟨c2, _, heq⟩ := List.mem_map.mp hmem
      simp at heq
    · intro c hmem
      obtain ⟨c2, _, heq⟩ := List.mem_map.mp hmem
      simp at heq

/-- C9 witness: the amended overwrite behaviour at a concrete table. -/
theorem C9_add_overwrite_witness :
    assocFind "a" (Add tblC9w "a" 2 (Val.str "y") 6).2.1.items =
        some (NewCacheItem "a" 2 (Val.str "y") 6) ∧
      (Add tblC9w "a" 2 (Val.str "y") 6).2.2.filter (fun e => eventKey e == "a") =
        [Event.added 3 (NewCacheItem "a" 2 (Val.str "y") 6)] :=
  ⟨(C9_add_overwrite tblC9w "a" 2 (Val.str "y") 6 itOld9 rfl
      (by simp [NodupKeys, tblC9w, emptyTable])
      (by simp [KeysConsistent, tblC9w, emptyTable, itOld9, NewCacheItem])).1,
   ((C9_add_overwrite tblC9w "a" 2 (Val.str "y") 6 itOld9 rfl
      (by simp [NodupKeys, tblC9w, emptyTable])
      (by simp [KeysConsistent, tblC9w, emptyTable, itOld9, NewCacheItem])).2.1).trans rfl⟩

/-- With pairwise-distinct keys, lookup finds exactly the entry a key
is bound to. -/
theorem mem_assocFind_of_nodup (l : List (String × CacheItem)) (hnd : NodupKeys l)
    (k : String) (it : CacheItem) (hmem : (k, it) ∈ l) : assocFind k l = some it := by
  induction l with
  | nil => simp at hmem
  | cons p rest ih =>
    rw [NodupKeys, List.pairwise_cons] at hnd
    rcases List.mem_cons.mp hmem with h | h
    · rw [← h]
      simp
    · have hne : p.1 ≠ k := by
        simpa using hnd.1 (k, it) h
      simp [hne, ih hnd.2 h]

/-- Each snapshot pair of `MostAccessed` looks up to an item carrying
exactly the snapshotted access count (given distinct keys). -/
theorem assocFind_count_of_pair (l : List (String × CacheItem)) (hnd : NodupKeys l)
    (pr : String × Int) (hmem : pr ∈ l.map (fun kv => (kv.1, kv.2.accessCount))) :
    ∃ x, assocFind pr.1 l = some x ∧ x.accessCount = pr.2 := by
  obtain ⟨kv, hkv, heq⟩ := List.mem_map.mp hmem
  subst heq
  exact ⟨kv.2, mem_assocFind_of_nodup l hnd kv.1 kv.2 hkv, rfl⟩

/-- C8: for every nonnegative count bound, `MostAccessed` returns at
most `min(n, Count())` items, ordered by non-increasing access count. -/
theorem C8_mostAccessed (t : CacheTable) (n : Int) (h0 : 0 ≤ n) (hnd : NodupKeys t.items) :
    (MostAccessed t n).length ≤ min n.toNat (Count t) ∧
    (MostAccessed t n).Pairwise (fun a b => b.accessCount ≤ a.accessCount) := by
  constructor
  · have hfm := List.length_filterMap_le (fun pr => assocFind pr.1 t.items)
      (((t.items.map (fun kv => (kv.1, kv.2.accessCount))).mergeSort
        (fun a b => decide (b.2 ≤ a.2))).take n.toNat)
    have hlen : ((t.items.map (fun kv => (kv.1, kv.2.accessCount))).mergeSort
        (fun a b => decide (b.2 ≤ a.2))).length = t.items.length := by
      rw [(List.mergeSort_perm _ _).length_eq, List.length_map]
    unfold MostAccessed
    refine le_trans hfm ?_
    rw [List.length_take, hlen]
    exact le_rfl
  · have htrans : ∀ a b c : String × Int, decide (b.2 ≤ a.2) = true →
        decide (c.2 ≤ b.2) = true → decide (c.2 ≤ a.2) = true := by
      intro a b c hab hbc
      simp only [decide_eq_true_eq] at *
      exact le_trans hbc hab
    have htot : ∀ a b : String × Int,
        (decide (b.2 ≤ a.2) || decide (a.2 ≤ b.2)) = true := by
      intro a b
      simp only [Bool.or_eq_true, decide_eq_true_eq]
      exact le_total b.2 a.2
    have hsorted := List.sorted_mergeSort htrans htot
      (t.items.map (fun kv => (kv.1, kv.2.accessCount)))
    have htake := List.Pairwise.sublist (List.take_sublist n.toNat _) hsorted
    unfold MostAccessed
    rw [List.pairwise_filterMap]
    refine htake.imp_of_mem ?_
    intro a b ha hb hab x hx y hy
    have hamem : a ∈ t.items.map (fun kv => (kv.1, kv.2.accessCount)) :=
      ((List.mergeSort_perm _ _).mem_iff).mp ((List.take_sublist _ _).subset ha)
    have hbmem : b ∈ t.items.map (fun kv => (kv.1, kv.2.accessCount)) :=
      ((List.mergeSort_perm _ _).mem_iff).mp ((List.take_sublist _ _).subset hb)
    obtain ⟨xa, hfa, hca⟩ := assocFind_count_of_pair _ hnd a hamem
    obtain ⟨yb, hfb, hcb⟩ := assocFind_count_of_pair _ hnd b hbmem
    have hxa : x = xa := by
      rw [Option.mem_def, hfa] at hx
      exact (Option.some.inj hx).symm
    have hyb : y = yb := by
      rw [Option.mem_def, hfb] at hy
      exact (Option.some.inj hy).symm
    rw [hxa, hyb, hca, hcb]
    exact decide_eq_true_eq.mp hab

/-- C8 witness: the bound and the ordering at a concrete two-item
table. -/
theorem C8_mostAccessed_witness :
    0 ≤ (2 : Int) ∧ NodupKeys tblC8.items ∧
      ((MostAccessed tblC8 2).length ≤ min (2 : Int).toNat (Count tblC8) ∧
        (MostAccessed tblC8 2).Pairwise (fun a b => b.accessCount ≤ a.accessCount)) :=
  ⟨by decide,
   by simp [NodupKeys, tblC8, emptyTable],
   C8_mostAccessed tblC8 2 (by decide) (by simp [NodupKeys, tblC8, emptyTable])⟩

end Cache
